import Mathlib

/-!
# Verification of a scalar reverse-mode autodiff engine

Shallow embedding of `src/lib.rs` (a micrograd-style engine).  The Rust
code stores each node's scalar value and gradient in an `Rc<RefCell<ValueData>>`
cell; a `Value` handle is a pointer to that cell plus an optional shared
operation record.  We model the heap of cells as a `Store`: a function from
node ids (allocation order, modelling stable storage locations) to
`ValueData`, together with the next fresh id.  `f64` scalars are modelled
as `ℚ`; every arithmetic step exercised by the specification's claims is
exact in `f64`, so rational arithmetic is a faithful model of the values
involved.  Handles are modelled by the mutual inductive `Value`/`Operation`:
a handle carries its storage id and (a shared copy of) its operation record,
exactly as the Rust `Value` struct carries `Rc<RefCell<ValueData>>` and
`Option<Rc<Operation>>`.
-/

namespace Micrograd

/-- `struct ValueData { data: f64, grad: f64 }`. -/
structure ValueData where
  data : ℚ
  grad : ℚ
  deriving DecidableEq, Repr

mutual
/-- `struct Value { data: Rc<RefCell<ValueData>>, operation: Option<Rc<Operation>> }`.
The `id` is the storage location of the `Rc` cell (allocation index). -/
inductive Value where
  | mk (id : Nat) (operation : Option Operation)

/-- `enum Operation { Addition(Value, Value), Subtraction(Value, Value),
Multiplication(Value, Value), Exponentiation(Value, u32) }`. -/
inductive Operation where
  | Addition (lhs rhs : Value)
  | Subtraction (lhs rhs : Value)
  | Multiplication (lhs rhs : Value)
  | Exponentiation (base : Value) (pow : Nat)
end

/-- The storage location (pointer identity) of a handle. -/
def Value.id : Value → Nat
  | .mk i _ => i

/-- The operation record attached to a handle (`None` for a leaf). -/
def Value.operation : Value → Option Operation
  | .mk _ o => o

mutual
def Value.decEq : (v w : Value) → Decidable (v = w)
  | .mk i none, .mk j none =>
    if h : i = j then .isTrue (by rw [h]) else .isFalse (by intro hc; cases hc; exact h rfl)
  | .mk i none, .mk j (some _) => .isFalse (by intro hc; cases hc)
  | .mk i (some _), .mk j none => .isFalse (by intro hc; cases hc)
  | .mk i (some op1), .mk j (some op2) =>
    if h : i = j then
      match Operation.decEq op1 op2 with
      | .isTrue heq => .isTrue (by rw [h, heq])
      | .isFalse hne => .isFalse (by intro hc; cases hc; exact hne rfl)
    else .isFalse (by intro hc; cases hc; exact h rfl)

def Operation.decEq : (o p : Operation) → Decidable (o = p)
  | .Addition a b, .Addition c d =>
    match Value.decEq a c, Value.decEq b d with
    | .isTrue h1, .isTrue h2 => .isTrue (by rw [h1, h2])
    | .isFalse h1, _ => .isFalse (by intro hc; cases hc; exact h1 rfl)
    | _, .isFalse h2 => .isFalse (by intro hc; cases hc; exact h2 rfl)
  | .Addition _ _, .Subtraction _ _ => .isFalse (by intro hc; cases hc)
  | .Addition _ _, .Multiplication _ _ => .isFalse (by intro hc; cases hc)
  | .Addition _ _, .Exponentiation _ _ => .isFalse (by intro hc; cases hc)
  | .Subtraction _ _, .Addition _ _ => .isFalse (by intro hc; cases hc)
  | .Subtraction a b, .Subtraction c d =>
    match Value.decEq a c, Value.decEq b d with
    | .isTrue h1, .isTrue h2 => .isTrue (by rw [h1, h2])
    | .isFalse h1, _ => .isFalse (by intro hc; cases hc; exact h1 rfl)
    | _, .isFalse h2 => .isFalse (by intro hc; cases hc; exact h2 rfl)
  | .Subtraction _ _, .Multiplication _ _ => .isFalse (by intro hc; cases hc)
  | .Subtraction _ _, .Exponentiation _ _ => .isFalse (by intro hc; cases hc)
  | .Multiplication _ _, .Addition _ _ => .isFalse (by intro hc; cases hc)
  | .Multiplication _ _, .Subtraction _ _ => .isFalse (by intro hc; cases hc)
  | .Multiplication a b, .Multiplication c d =>
    match Value.decEq a c, Value.decEq b d with
    | .isTrue h1, .isTrue h2 => .isTrue (by rw [h1, h2])
    | .isFalse h1, _ => .isFalse (by intro hc; cases hc; exact h1 rfl)
    | _, .isFalse h2 => .isFalse (by intro hc; cases hc; exact h2 rfl)
  | .Multiplication _ _, .Exponentiation _ _ => .isFalse (by intro hc; cases hc)
  | .Exponentiation _ _, .Addition _ _ => .isFalse (by intro hc; cases hc)
  | .Exponentiation _ _, .Subtraction _ _ => .isFalse (by intro hc; cases hc)
  | .Exponentiation _ _, .Multiplication _ _ => .isFalse (by intro hc; cases hc)
  | .Exponentiation a m, .Exponentiation b n =>
    match Value.decEq a b with
    | .isTrue h1 =>
      if h : m = n then .isTrue (by rw [h1, h]) else .isFalse (by intro hc; cases hc; exact h rfl)
    | .isFalse h1 => .isFalse (by intro hc; cases hc; exact h1 rfl)
end

instance : DecidableEq Value := Value.decEq
instance : DecidableEq Operation := Operation.decEq

/-- The heap of `Rc<RefCell<ValueData>>` cells: contents of every storage
location, plus the next fresh location. -/
structure Store where
  mem : Nat → ValueData
  next : Nat

/-- Pointwise heap update at one storage location. -/
def setMem (m : Nat → ValueData) (i : Nat) (d : ValueData) : Nat → ValueData :=
  fun j => if j = i then d else m j

/-- The empty heap: nothing allocated yet. -/
def Store.empty : Store := ⟨fun _ => ⟨0, 0⟩, 0⟩

/-- `Value::new(data, operation)`: allocates a fresh cell with the given
data and gradient `0.0`, and returns the new handle. -/
def Value.new (data : ℚ) (operation : Option Operation) (s : Store) : Value × Store :=
  (.mk s.next operation, ⟨setMem s.mem s.next ⟨data, 0⟩, s.next + 1⟩)

/-- `Value::from_val(val)`. -/
def from_val (val : ℚ) (s : Store) : Value × Store :=
  Value.new val none s

/-- `Value::data(&self)`. -/
def Value.data (v : Value) (s : Store) : ℚ :=
  (s.mem v.id).data

/-- `Value::grad(&self)`. -/
def Value.grad (v : Value) (s : Store) : ℚ :=
  (s.mem v.id).grad

/-- `Value::set_grad(&self, grad)`: overwrites the gradient field of the
node's cell in place, leaving the data field untouched. -/
def Value.set_grad (v : Value) (grad : ℚ) (s : Store) : Store :=
  ⟨setMem s.mem v.id ⟨(s.mem v.id).data, grad⟩, s.next⟩

/-- `Value::powi(self, exp)`. -/
def Value.powi (v : Value) (exp : Nat) (s : Store) : Value × Store :=
  Value.new ((v.data s) ^ exp) (some (.Exponentiation v exp)) s

/-- `impl Add for Value`. -/
def Value.add (a b : Value) (s : Store) : Value × Store :=
  Value.new (a.data s + b.data s) (some (.Addition a b)) s

/-- `impl Sub for Value`. -/
def Value.sub (a b : Value) (s : Store) : Value × Store :=
  Value.new (a.data s - b.data s) (some (.Subtraction a b)) s

/-- `impl Mul for Value`. -/
def Value.mul (a b : Value) (s : Store) : Value × Store :=
  Value.new (a.data s * b.data s) (some (.Multiplication a b)) s

/-- `Operation::calculate_gradients(&self, grad)`: the per-operation
backward rule, as two sequential read-modify-write store updates (addition
and subtraction accumulate; multiplication and exponentiation overwrite). -/
def Operation.calculate_gradients (op : Operation) (grad : ℚ) (s : Store) : Store :=
  match op with
  | .Addition lhs rhs =>
    let s1 := lhs.set_grad (lhs.grad s + grad) s
    rhs.set_grad (rhs.grad s1 + grad) s1
  | .Subtraction lhs rhs =>
    let s1 := lhs.set_grad (lhs.grad s + grad) s
    rhs.set_grad (rhs.grad s1 - grad) s1
  | .Multiplication lhs rhs =>
    let s1 := lhs.set_grad (grad * rhs.data s) s
    rhs.set_grad (grad * lhs.data s1) s1
  | .Exponentiation base pow =>
    if pow > 0 then
      base.set_grad (grad * (pow : ℚ) * (base.data s) ^ (pow - 1)) s
    else
      base.set_grad 0 s

mutual
/-- `Value::toposort_impl`: depth-first post-order traversal with a visited
set keyed by storage identity. -/
def Value.toposort_impl : Value → List Nat → List Value → List Nat × List Value
  | .mk i op?, visited, traversal =>
    if i ∈ visited then (visited, traversal)
    else
      match op? with
      | some op =>
        ((op.toposort_ops (i :: visited) traversal).1,
         (op.toposort_ops (i :: visited) traversal).2 ++ [.mk i op?])
      | none => (i :: visited, traversal ++ [.mk i op?])

/-- The recursive operand visits inside `toposort_impl`'s `match`: left
operand first, then right operand on the updated visited set and list. -/
def Operation.toposort_ops : Operation → List Nat → List Value → List Nat × List Value
  | .Addition lhs rhs, vis, tr =>
    rhs.toposort_impl (lhs.toposort_impl vis tr).1 (lhs.toposort_impl vis tr).2
  | .Subtraction lhs rhs, vis, tr =>
    rhs.toposort_impl (lhs.toposort_impl vis tr).1 (lhs.toposort_impl vis tr).2
  | .Multiplication lhs rhs, vis, tr =>
    rhs.toposort_impl (lhs.toposort_impl vis tr).1 (lhs.toposort_impl vis tr).2
  | .Exponentiation base _, vis, tr =>
    base.toposort_impl vis tr
end

/-- `Value::toposort`: reversed post-order. -/
def Value.toposort (v : Value) : List Value :=
  (v.toposort_impl [] []).2.reverse

/-- `Value::backward(&self)`: seed the terminal gradient with `1.0`, then
apply each operation's gradient rule in topological order, reading each
node's gradient at processing time. -/
def Value.backward (v : Value) (s : Store) : Store :=
  (v.toposort).foldl
    (fun st val =>
      match val.operation with
      | some op => op.calculate_gradients (val.grad st) st
      | none => st)
    (v.set_grad 1 s)

/-- `impl PartialEq for Value`: `Rc::ptr_eq(&self.data, &other.data)` —
handle equality is storage-location equality. -/
def Value.eq (v w : Value) : Bool :=
  v.id == w.id

/-- `impl Hash for Value`: hashes the storage location (`Rc::as_ptr`). -/
def Value.ptrHash (v : Value) : Nat :=
  v.id

/-- `#[derive(Clone)]` on `Value`: cloning copies the `Rc` pointers, so the
clone is the same handle (same storage, same shared operation record). -/
def Value.clone (v : Value) : Value := v

end Micrograd

namespace Micrograd

/-- The simp set that evaluates graph construction and the backward pass on
a concrete graph shape (node ids and traversal are concrete; scalar data may
stay symbolic). -/
theorem grad_set_grad_self (v : Value) (g : ℚ) (s : Store) :
    v.grad (v.set_grad g s) = g := by
  simp [Value.grad, Value.set_grad, setMem]

end Micrograd

namespace Micrograd

/-- Claim C1: self-reuse under aliasing.  For a leaf `a` created from the
literal `1.0`, building `b = a + a` (the same handle as both operands) and
running backward from `b` leaves `a`'s gradient equal to `2.0` and `b`'s
gradient equal to `1.0`: both read-modify-write updates through the two
aliasing operand handles are committed. -/
theorem self_reuse_addition_backward (a b : Value) (s1 s2 : Store)
    (ha : from_val 1 Store.empty = (a, s1))
    (hb : Value.add a a s1 = (b, s2)) :
    a.grad (b.backward s2) = 2 ∧ b.grad (b.backward s2) = 1 := by
  have h1 : a = (from_val 1 Store.empty).1 := by rw [ha]
  have h2 : s1 = (from_val 1 Store.empty).2 := by rw [ha]
  subst h1 h2
  have h1 : b = (Value.add (from_val 1 Store.empty).1 (from_val 1 Store.empty).1
      (from_val 1 Store.empty).2).1 := by rw [hb]
  have h2 : s2 = (Value.add (from_val 1 Store.empty).1 (from_val 1 Store.empty).1
      (from_val 1 Store.empty).2).2 := by rw [hb]
  subst h1 h2
  constructor <;>
  norm_num [from_val, Value.new, Value.add, Value.backward, Value.toposort, Value.toposort_impl,
    Operation.toposort_ops, Value.set_grad, Value.grad, Value.data, Value.id, Value.operation,
    Operation.calculate_gradients, setMem, Store.empty]

theorem self_reuse_addition_backward_witness :
    (from_val 1 Store.empty).1.grad
      ((Value.add (from_val 1 Store.empty).1 (from_val 1 Store.empty).1
          (from_val 1 Store.empty).2).1.backward
        (Value.add (from_val 1 Store.empty).1 (from_val 1 Store.empty).1
          (from_val 1 Store.empty).2).2) = 2 :=
  (self_reuse_addition_backward _ _ _ _ rfl rfl).1

/-- Claim C2: multiplication forward and backward.  For distinct fresh
leaves `a` and `b`, `c = a * b` has `c.value = a.value * b.value`; after
backward from `c`, `a`'s gradient is `b.value` and `b`'s gradient is
`a.value`.  Moreover the multiplication rule overwrites: for any incoming
gradient `g` and any store, it leaves `a.gradient = g * b.value` and
`b.gradient = g * a.value` regardless of the gradients held before. -/
theorem mul_forward_backward (va vb : ℚ) (a b c : Value) (s1 s2 s3 : Store)
    (ha : from_val va Store.empty = (a, s1))
    (hb : from_val vb s1 = (b, s2))
    (hc : Value.mul a b s2 = (c, s3)) :
    a.eq b = false ∧
    c.data s3 = va * vb ∧
    a.grad (c.backward s3) = vb ∧
    b.grad (c.backward s3) = va ∧
    (∀ (g : ℚ) (s : Store),
      a.grad ((Operation.Multiplication a b).calculate_gradients g s) = g * b.data s ∧
      b.grad ((Operation.Multiplication a b).calculate_gradients g s) = g * a.data s) := by
  have h1 : a = (from_val va Store.empty).1 := by rw [ha]
  have h2 : s1 = (from_val va Store.empty).2 := by rw [ha]
  subst h1 h2
  have h1 : b = (from_val vb (from_val va Store.empty).2).1 := by rw [hb]
  have h2 : s2 = (from_val vb (from_val va Store.empty).2).2 := by rw [hb]
  subst h1 h2
  have h1 : c = _ := congrArg Prod.fst hc.symm
  have h2 : s3 = _ := congrArg Prod.snd hc.symm
  subst h1 h2
  refine ⟨?_, ?_, ?_, ?_, fun g s => ⟨?_, ?_⟩⟩ <;>
  norm_num [from_val, Value.new, Value.mul, Value.backward, Value.toposort, Value.toposort_impl,
    Operation.toposort_ops, Value.set_grad, Value.grad, Value.data, Value.id, Value.operation,
    Operation.calculate_gradients, setMem, Store.empty, Value.eq]

theorem mul_forward_backward_witness :
    ((from_val 11 Store.empty).1.mul (from_val 12 (from_val 11 Store.empty).2).1
        (from_val 12 (from_val 11 Store.empty).2).2).1.data
      ((from_val 11 Store.empty).1.mul (from_val 12 (from_val 11 Store.empty).2).1
        (from_val 12 (from_val 11 Store.empty).2).2).2 = 11 * 12 :=
  (mul_forward_backward 11 12 _ _ _ _ _ _ rfl rfl rfl).2.1

/-- Claim C5: addition forward and backward.  For distinct fresh leaves `a`
and `b`, `c = a + b` has `c.value = a.value + b.value`; after backward
seeded from `c` (terminal gradient `1.0`), both operand gradients are
`1.0`.  Moreover the addition rule accumulates: for any incoming gradient
`g` and any store, it adds `g` on top of each operand's current gradient. -/
theorem add_forward_backward (va vb : ℚ) (a b c : Value) (s1 s2 s3 : Store)
    (ha : from_val va Store.empty = (a, s1))
    (hb : from_val vb s1 = (b, s2))
    (hc : Value.add a b s2 = (c, s3)) :
    a.eq b = false ∧
    c.data s3 = va + vb ∧
    a.grad (c.backward s3) = 1 ∧
    b.grad (c.backward s3) = 1 ∧
    (∀ (g : ℚ) (s : Store),
      a.grad ((Operation.Addition a b).calculate_gradients g s) = a.grad s + g ∧
      b.grad ((Operation.Addition a b).calculate_gradients g s) = b.grad s + g) := by
  have h1 : a = (from_val va Store.empty).1 := by rw [ha]
  have h2 : s1 = (from_val va Store.empty).2 := by rw [ha]
  subst h1 h2
  have h1 : b = (from_val vb (from_val va Store.empty).2).1 := by rw [hb]
  have h2 : s2 = (from_val vb (from_val va Store.empty).2).2 := by rw [hb]
  subst h1 h2
  have h1 : c = _ := congrArg Prod.fst hc.symm
  have h2 : s3 = _ := congrArg Prod.snd hc.symm
  subst h1 h2
  refine ⟨?_, ?_, ?_, ?_, fun g s => ⟨?_, ?_⟩⟩ <;>
  norm_num [from_val, Value.new, Value.add, Value.backward, Value.toposort, Value.toposort_impl,
    Operation.toposort_ops, Value.set_grad, Value.grad, Value.data, Value.id, Value.operation,
    Operation.calculate_gradients, setMem, Store.empty, Value.eq]

theorem add_forward_backward_witness :
    ((from_val 1 Store.empty).1.add (from_val 2 (from_val 1 Store.empty).2).1
        (from_val 2 (from_val 1 Store.empty).2).2).1.data
      ((from_val 1 Store.empty).1.add (from_val 2 (from_val 1 Store.empty).2).1
        (from_val 2 (from_val 1 Store.empty).2).2).2 = 1 + 2 :=
  (add_forward_backward 1 2 _ _ _ _ _ _ rfl rfl rfl).2.1

end Micrograd

namespace Micrograd

/-- Claim C4: power rule through a product.  For a fresh leaf `x` with
value `3.0`, `y = (leaf 4.0) * x.powi(5)` has `y.value = 972.0`; after
backward from `y`, `y`'s gradient is `1.0`, the power node's gradient is
the `4.0` deposited by the multiplication rule, and `x`'s gradient is
`4 * 5 * x.value^4 = 1620.0`. -/
theorem power_rule_through_product (x four p y : Value) (s1 s2 s3 s4 : Store)
    (hx : from_val 3 Store.empty = (x, s1))
    (hf : from_val 4 s1 = (four, s2))
    (hp : Value.powi x 5 s2 = (p, s3))
    (hy : Value.mul four p s3 = (y, s4)) :
    y.data s4 = 972 ∧
    y.grad (y.backward s4) = 1 ∧
    p.grad (y.backward s4) = 4 ∧
    x.grad (y.backward s4) = 4 * 5 * (x.data s4) ^ 4 ∧
    x.grad (y.backward s4) = 1620 := by
  have h1 : x = (from_val 3 Store.empty).1 := by rw [hx]
  have h2 : s1 = (from_val 3 Store.empty).2 := by rw [hx]
  subst h1 h2
  have h1 : four = (from_val 4 (from_val 3 Store.empty).2).1 := by rw [hf]
  have h2 : s2 = (from_val 4 (from_val 3 Store.empty).2).2 := by rw [hf]
  subst h1 h2
  have h1 : p = _ := congrArg Prod.fst hp.symm
  have h2 : s3 = _ := congrArg Prod.snd hp.symm
  subst h1 h2
  have h1 : y = _ := congrArg Prod.fst hy.symm
  have h2 : s4 = _ := congrArg Prod.snd hy.symm
  subst h1 h2
  refine ⟨?_, ?_, ?_, ?_, ?_⟩ <;>
  norm_num [from_val, Value.new, Value.mul, Value.powi, Value.backward, Value.toposort,
    Value.toposort_impl, Operation.toposort_ops, Value.set_grad, Value.grad, Value.data,
    Value.id, Value.operation, Operation.calculate_gradients, setMem, Store.empty]

theorem power_rule_through_product_witness :
    (Value.mul (from_val 4 (from_val 3 Store.empty).2).1
        (Value.powi (from_val 3 Store.empty).1 5 (from_val 4 (from_val 3 Store.empty).2).2).1
        (Value.powi (from_val 3 Store.empty).1 5 (from_val 4 (from_val 3 Store.empty).2).2).2).1.data
      (Value.mul (from_val 4 (from_val 3 Store.empty).2).1
        (Value.powi (from_val 3 Store.empty).1 5 (from_val 4 (from_val 3 Store.empty).2).2).1
        (Value.powi (from_val 3 Store.empty).1 5 (from_val 4 (from_val 3 Store.empty).2).2).2).2
      = 972 :=
  (power_rule_through_product _ _ _ _ _ _ _ _ rfl rfl rfl rfl).1

/-- Claim C6: zero exponent.  For a fresh leaf `x` with value `3.0`,
`y = x.powi(0)` has `y.value = 1.0` (exponent `0` is accepted), and after
backward from `y`, `x`'s gradient is `0.0`; the `n = 0` branch of the
exponentiation rule writes `base.gradient := 0.0` in any store. -/
theorem powi_zero_backward (x y : Value) (s1 s2 : Store)
    (hx : from_val 3 Store.empty = (x, s1))
    (hy : Value.powi x 0 s1 = (y, s2)) :
    y.data s2 = 1 ∧
    y.grad (y.backward s2) = 1 ∧
    x.grad (y.backward s2) = 0 ∧
    (∀ (g : ℚ) (s : Store),
      x.grad ((Operation.Exponentiation x 0).calculate_gradients g s) = 0) := by
  have h1 : x = (from_val 3 Store.empty).1 := by rw [hx]
  have h2 : s1 = (from_val 3 Store.empty).2 := by rw [hx]
  subst h1 h2
  have h1 : y = _ := congrArg Prod.fst hy.symm
  have h2 : s2 = _ := congrArg Prod.snd hy.symm
  subst h1 h2
  refine ⟨?_, ?_, ?_, fun g s => ?_⟩ <;>
  norm_num [from_val, Value.new, Value.powi, Value.backward, Value.toposort,
    Value.toposort_impl, Operation.toposort_ops, Value.set_grad, Value.grad, Value.data,
    Value.id, Value.operation, Operation.calculate_gradients, setMem, Store.empty]

theorem powi_zero_backward_witness :
    (Value.powi (from_val 3 Store.empty).1 0 (from_val 3 Store.empty).2).1.data
      (Value.powi (from_val 3 Store.empty).1 0 (from_val 3 Store.empty).2).2 = 1 :=
  (powi_zero_backward _ _ _ _ rfl rfl).1

/-- Claim C8: self-reuse under multiplication overwrites a contribution.
For a fresh leaf `a` with value `v`, building `b = a * a` (the same handle
as both operands) and running backward from `b` leaves `a`'s gradient equal
to `v` — each of the two overwrites writes `1 * v` through an alias of the
same storage — not the calculus derivative `2 * v`. -/
theorem self_reuse_mul_overwrites (v : ℚ) (a b : Value) (s1 s2 : Store)
    (ha : from_val v Store.empty = (a, s1))
    (hb : Value.mul a a s1 = (b, s2)) :
    a.grad (b.backward s2) = v ∧ b.grad (b.backward s2) = 1 := by
  have h1 : a = (from_val v Store.empty).1 := by rw [ha]
  have h2 : s1 = (from_val v Store.empty).2 := by rw [ha]
  subst h1 h2
  have h1 : b = _ := congrArg Prod.fst hb.symm
  have h2 : s2 = _ := congrArg Prod.snd hb.symm
  subst h1 h2
  constructor <;>
  norm_num [from_val, Value.new, Value.mul, Value.backward, Value.toposort, Value.toposort_impl,
    Operation.toposort_ops, Value.set_grad, Value.grad, Value.data, Value.id, Value.operation,
    Operation.calculate_gradients, setMem, Store.empty]

theorem self_reuse_mul_overwrites_witness :
    (from_val 5 Store.empty).1.grad
      ((Value.mul (from_val 5 Store.empty).1 (from_val 5 Store.empty).1
          (from_val 5 Store.empty).2).1.backward
        (Value.mul (from_val 5 Store.empty).1 (from_val 5 Store.empty).1
          (from_val 5 Store.empty).2).2) = 5 :=
  (self_reuse_mul_overwrites 5 _ _ _ _ rfl rfl).1

/-- Claim C9: gradients persist across backward passes.  Backward resets
only the terminal node's gradient (to `1.0`); running backward twice in
succession on `c = a + b` for fresh leaves `a` and `b` therefore leaves
`a`'s gradient equal to `2.0` (the accumulating addition rule adds on top
of the gradient left by the first pass), while `c`'s gradient is `1.0`. -/
theorem backward_twice_accumulates (va vb : ℚ) (a b c : Value) (s1 s2 s3 : Store)
    (ha : from_val va Store.empty = (a, s1))
    (hb : from_val vb s1 = (b, s2))
    (hc : Value.add a b s2 = (c, s3)) :
    a.grad (c.backward (c.backward s3)) = 2 ∧
    b.grad (c.backward (c.backward s3)) = 2 ∧
    c.grad (c.backward (c.backward s3)) = 1 := by
  have h1 : a = (from_val va Store.empty).1 := by rw [ha]
  have h2 : s1 = (from_val va Store.empty).2 := by rw [ha]
  subst h1 h2
  have h1 : b = (from_val vb (from_val va Store.empty).2).1 := by rw [hb]
  have h2 : s2 = (from_val vb (from_val va Store.empty).2).2 := by rw [hb]
  subst h1 h2
  have h1 : c = _ := congrArg Prod.fst hc.symm
  have h2 : s3 = _ := congrArg Prod.snd hc.symm
  subst h1 h2
  refine ⟨?_, ?_, ?_⟩ <;>
  norm_num [from_val, Value.new, Value.add, Value.backward, Value.toposort, Value.toposort_impl,
    Operation.toposort_ops, Value.set_grad, Value.grad, Value.data, Value.id, Value.operation,
    Operation.calculate_gradients, setMem, Store.empty]

theorem backward_twice_accumulates_witness :
    (from_val 1 Store.empty).1.grad
      (((from_val 1 Store.empty).1.add (from_val 2 (from_val 1 Store.empty).2).1
          (from_val 2 (from_val 1 Store.empty).2).2).1.backward
        (((from_val 1 Store.empty).1.add (from_val 2 (from_val 1 Store.empty).2).1
            (from_val 2 (from_val 1 Store.empty).2).2).1.backward
          ((from_val 1 Store.empty).1.add (from_val 2 (from_val 1 Store.empty).2).1
            (from_val 2 (from_val 1 Store.empty).2).2).2)) = 2 :=
  (backward_twice_accumulates 1 2 _ _ _ _ _ _ rfl rfl rfl).1

end Micrograd

namespace Micrograd

/-- Claim C7: handle identity semantics.  Handle equality holds iff the two
handles name the same storage location; two leaves allocated separately from
the same literal compare unequal; a handle and its clone compare equal and
hash equal. -/
theorem handle_identity :
    (∀ h1 h2 : Value, h1.eq h2 = true ↔ h1.id = h2.id) ∧
    (∀ (s : Store) (x : ℚ),
      (from_val x s).1.eq (from_val x (from_val x s).2).1 = false) ∧
    (∀ v : Value, v.eq v.clone = true ∧ v.clone.ptrHash = v.ptrHash) := by
  refine ⟨fun h1 h2 => ?_, fun s x => ?_, fun v => ⟨?_, rfl⟩⟩
  · simp [Value.eq]
  · simp only [Value.eq, from_val, Value.new, Value.id, beq_eq_false_iff_ne, ne_eq]
    omega
  · simp [Value.eq, Value.clone]

theorem data_set_grad (v : Value) (g : ℚ) (s : Store) (j : Nat) :
    ((v.set_grad g s).mem j).data = (s.mem j).data := by
  simp only [Value.set_grad, setMem]
  split
  · rename_i h
    rw [h]
  · rfl

theorem data_calculate_gradients (op : Operation) (g : ℚ) (s : Store) (j : Nat) :
    ((op.calculate_gradients g s).mem j).data = (s.mem j).data := by
  cases op <;> simp only [Operation.calculate_gradients]
  · rw [data_set_grad, data_set_grad]
  · rw [data_set_grad, data_set_grad]
  · rw [data_set_grad, data_set_grad]
  · split <;> rw [data_set_grad]

theorem data_backward_fold (l : List Value) (st : Store) (j : Nat) :
    ((l.foldl
        (fun st val =>
          match val.operation with
          | some op => op.calculate_gradients (val.grad st) st
          | none => st)
        st).mem j).data = (st.mem j).data := by
  induction l generalizing st with
  | nil => rfl
  | cons v l ih =>
    rw [List.foldl_cons, ih]
    cases h : v.operation <;> simp only [h]
    rw [data_calculate_gradients]

/-- Claim C10: frame of `set_grad`.  `set_grad(h, g)` changes only the
node's gradient field: a subsequent `grad(h)` returns `g`, `value(h)` is
unchanged, every other storage location is untouched, allocation state is
untouched, and no data (value) field anywhere is ever mutated — neither by
`set_grad` nor by a whole backward pass.  (Operation records live in the
handles themselves and are immutable in the model, as the `Rc<Operation>`
is never written after creation.) -/
theorem set_grad_frame (s : Store) (v : Value) (g : ℚ) :
    v.grad (v.set_grad g s) = g ∧
    v.data (v.set_grad g s) = v.data s ∧
    (∀ i, i ≠ v.id → (v.set_grad g s).mem i = s.mem i) ∧
    (v.set_grad g s).next = s.next ∧
    (∀ j, ((v.set_grad g s).mem j).data = (s.mem j).data) ∧
    (∀ (w : Value) (j : Nat), ((w.backward s).mem j).data = (s.mem j).data) := by
  refine ⟨?_, ?_, fun i hi => ?_, rfl, fun j => data_set_grad v g s j, fun w j => ?_⟩
  · simp [Value.grad, Value.set_grad, setMem]
  · simp [Value.data, data_set_grad]
  · simp [Value.set_grad, setMem, hi]
  · rw [Value.backward, data_backward_fold, data_set_grad]

theorem set_grad_frame_witness :
    (Value.mk 0 none).grad ((Value.mk 0 none).set_grad 5 Store.empty) = 5 ∧
    ((Value.mk 0 none).set_grad 5 Store.empty).mem 3 = Store.empty.mem 3 :=
  ⟨(set_grad_frame Store.empty (.mk 0 none) 5).1,
   (set_grad_frame Store.empty (.mk 0 none) 5).2.2.1 3 (by decide)⟩

end Micrograd

namespace Micrograd

/-! ## The operand graph

`Operation.operands` lists the operand handles of an operation record, in
the left-to-right order `toposort_impl` visits them; `Value.succs` is the
operand edge relation of the DAG; `Value.nodes` lists every handle
reachable from a terminal (the terminal included, with repetitions for
shared nodes).  `Coherent` says all reachable handles with the same storage
id are the same handle — the invariant `Rc` sharing guarantees in the Rust
program — and `Decreasing` says operand edges point to strictly older
storage locations, the structural acyclicity invariant (a node can only
reference nodes that already existed when it was created). -/

def Operation.operands : Operation → List Value
  | .Addition lhs rhs => [lhs, rhs]
  | .Subtraction lhs rhs => [lhs, rhs]
  | .Multiplication lhs rhs => [lhs, rhs]
  | .Exponentiation base _ => [base]

def Value.succs (v : Value) : List Value :=
  match v.operation with
  | some op => op.operands
  | none => []

mutual
def Value.nodes : Value → List Value
  | .mk i none => [.mk i none]
  | .mk i (some op) => .mk i (some op) :: op.opNodes

def Operation.opNodes : Operation → List Value
  | .Addition lhs rhs => lhs.nodes ++ rhs.nodes
  | .Subtraction lhs rhs => lhs.nodes ++ rhs.nodes
  | .Multiplication lhs rhs => lhs.nodes ++ rhs.nodes
  | .Exponentiation base _ => base.nodes
end

def Coherent (N : List Value) : Prop :=
  ∀ u ∈ N, ∀ w ∈ N, u.id = w.id → u = w

def Decreasing (N : List Value) : Prop :=
  ∀ u ∈ N, ∀ w ∈ u.succs, w.id < u.id

instance (N : List Value) : Decidable (Coherent N) :=
  decidable_of_iff (∀ u ∈ N, ∀ w ∈ N, u.id = w.id → u = w) Iff.rfl

instance (N : List Value) : Decidable (Decreasing N) :=
  decidable_of_iff (∀ u ∈ N, ∀ w ∈ u.succs, w.id < u.id) Iff.rfl

def idsOf (tr : List Value) : List Nat := tr.map Value.id

/-- Ordered closure of a traversal list: every entry is a known node and
all its operands occur strictly earlier in the list. -/
def OC (N tr : List Value) : Prop :=
  ∀ pre u post, tr = pre ++ u :: post → u ∈ N ∧ ∀ w ∈ u.succs, w ∈ pre

/-- The loop invariant of the depth-first traversal: `G` is the set of gray
ids (nodes whose visit has started on the call stack but not finished);
the visited set is exactly the finished (pushed) ids together with `G`;
the pushed list is ordered-closed with distinct ids, and no gray id has
been pushed yet. -/
def TopoInv (N : List Value) (G vis : List Nat) (tr : List Value) : Prop :=
  (∀ i, i ∈ vis ↔ i ∈ idsOf tr ∨ i ∈ G) ∧
  OC N tr ∧
  (idsOf tr).Nodup ∧
  (∀ g ∈ G, g ∉ idsOf tr)

theorem self_mem_nodes : ∀ (v : Value), v ∈ v.nodes
  | .mk _ none => by simp [Value.nodes]
  | .mk _ (some _) => by simp [Value.nodes]

theorem operands_subset_opNodes : ∀ (op : Operation), ∀ w ∈ op.operands, w ∈ op.opNodes
  | .Addition lhs rhs => by
    intro w hw
    simp only [Operation.operands, List.mem_cons, List.not_mem_nil, or_false] at hw
    simp only [Operation.opNodes, List.mem_append]
    rcases hw with rfl | rfl
    · exact Or.inl (self_mem_nodes w)
    · exact Or.inr (self_mem_nodes w)
  | .Subtraction lhs rhs => by
    intro w hw
    simp only [Operation.operands, List.mem_cons, List.not_mem_nil, or_false] at hw
    simp only [Operation.opNodes, List.mem_append]
    rcases hw with rfl | rfl
    · exact Or.inl (self_mem_nodes w)
    · exact Or.inr (self_mem_nodes w)
  | .Multiplication lhs rhs => by
    intro w hw
    simp only [Operation.operands, List.mem_cons, List.not_mem_nil, or_false] at hw
    simp only [Operation.opNodes, List.mem_append]
    rcases hw with rfl | rfl
    · exact Or.inl (self_mem_nodes w)
    · exact Or.inr (self_mem_nodes w)
  | .Exponentiation base n => by
    intro w hw
    simp only [Operation.operands, List.mem_cons, List.not_mem_nil, or_false] at hw
    simp only [Operation.opNodes]
    exact hw ▸ self_mem_nodes base

theorem succs_subset_nodes : ∀ (v : Value), ∀ w ∈ v.succs, w ∈ v.nodes
  | .mk i none => by simp [Value.succs, Value.operation]
  | .mk i (some op) => by
    intro w hw
    simp only [Value.succs, Value.operation] at hw
    rw [Value.nodes]
    exact List.mem_cons_of_mem _ (operands_subset_opNodes op w hw)

end Micrograd

namespace Micrograd

mutual
theorem nodes_trans : ∀ (v u : Value), u ∈ v.nodes → ∀ x ∈ u.nodes, x ∈ v.nodes
  | .mk i none, u => by
    intro hu x hx
    simp only [Value.nodes, List.mem_singleton] at hu
    subst hu
    exact hx
  | .mk i (some op), u => by
    intro hu x hx
    simp only [Value.nodes, List.mem_cons] at hu ⊢
    rcases hu with rfl | hu
    · simpa [Value.nodes] using hx
    · exact Or.inr (opNodes_trans op u hu x hx)

theorem opNodes_trans : ∀ (op : Operation) (u : Value), u ∈ op.opNodes → ∀ x ∈ u.nodes, x ∈ op.opNodes
  | .Addition lhs rhs, u => by
    intro hu x hx
    simp only [Operation.opNodes, List.mem_append] at hu ⊢
    rcases hu with hu | hu
    · exact Or.inl (nodes_trans lhs u hu x hx)
    · exact Or.inr (nodes_trans rhs u hu x hx)
  | .Subtraction lhs rhs, u => by
    intro hu x hx
    simp only [Operation.opNodes, List.mem_append] at hu ⊢
    rcases hu with hu | hu
    · exact Or.inl (nodes_trans lhs u hu x hx)
    · exact Or.inr (nodes_trans rhs u hu x hx)
  | .Multiplication lhs rhs, u => by
    intro hu x hx
    simp only [Operation.opNodes, List.mem_append] at hu ⊢
    rcases hu with hu | hu
    · exact Or.inl (nodes_trans lhs u hu x hx)
    · exact Or.inr (nodes_trans rhs u hu x hx)
  | .Exponentiation base n, u => by
    intro hu x hx
    simp only [Operation.opNodes] at hu ⊢
    exact nodes_trans base u hu x hx
end

/-- The reachable-node set is closed under operand edges. -/
theorem nodes_closed (v : Value) : ∀ u ∈ v.nodes, ∀ w ∈ u.succs, w ∈ v.nodes :=
  fun u hu w hw => nodes_trans v u hu w (succs_subset_nodes u w hw)

/-- Splitting a snoc list at an arbitrary element: either the element is
the final one, or the split lies inside the prefix. -/
theorem append_singleton_cases {α : Type _} (l : List α) (v : α) (pre post : List α) (u : α)
    (h : l ++ [v] = pre ++ u :: post) :
    (pre = l ∧ u = v ∧ post = []) ∨ (∃ post2, post = post2 ++ [v] ∧ l = pre ++ u :: post2) := by
  rcases List.eq_nil_or_concat post with rfl | ⟨post2, a, rfl⟩
  · have hlen : l.length = pre.length := by
      have := congrArg List.length h
      simp at this
      omega
    obtain ⟨h1, h2⟩ := List.append_inj h hlen
    exact Or.inl ⟨h1.symm, (by simpa using h2.symm), rfl⟩
  · have h2 : l ++ [v] = (pre ++ u :: post2) ++ [a] := by
      rw [h]
      simp
    have hlen : l.length = (pre ++ u :: post2).length := by
      have := congrArg List.length h2
      simp at this
      simp
      omega
    obtain ⟨h3, h4⟩ := List.append_inj h2 hlen
    have hva : v = a := by simpa using h4
    refine Or.inr ⟨post2, ?_, h3⟩
    rw [List.concat_eq_append, hva]

mutual
theorem OC_nodes_value : ∀ (v : Value) (N tr : List Value), OC N tr → v ∈ tr →
    ∀ u ∈ v.nodes, u ∈ tr
  | .mk i none, N, tr => by
    intro hOC hv u hu
    simp only [Value.nodes, List.mem_singleton] at hu
    subst hu
    exact hv
  | .mk i (some op), N, tr => by
    intro hOC hv u hu
    simp only [Value.nodes, List.mem_cons] at hu
    rcases hu with rfl | hu
    · exact hv
    · obtain ⟨pre, post, htr⟩ := List.append_of_mem hv
      have hsucc := (hOC pre _ post htr).2
      refine OC_nodes_op op N tr hOC ?_ u hu
      intro w hw
      have hw2 : w ∈ (Value.mk i (some op)).succs := by
        simpa [Value.succs, Value.operation] using hw
      have : w ∈ pre := hsucc w hw2
      rw [htr]
      exact List.mem_append_left _ this

theorem OC_nodes_op : ∀ (op : Operation) (N tr : List Value), OC N tr →
    (∀ w ∈ op.operands, w ∈ tr) → ∀ u ∈ op.opNodes, u ∈ tr
  | .Addition lhs rhs, N, tr => by
    intro hOC hops u hu
    simp only [Operation.opNodes, List.mem_append] at hu
    rcases hu with hu | hu
    · exact OC_nodes_value lhs N tr hOC (hops lhs (by simp [Operation.operands])) u hu
    · exact OC_nodes_value rhs N tr hOC (hops rhs (by simp [Operation.operands])) u hu
  | .Subtraction lhs rhs, N, tr => by
    intro hOC hops u hu
    simp only [Operation.opNodes, List.mem_append] at hu
    rcases hu with hu | hu
    · exact OC_nodes_value lhs N tr hOC (hops lhs (by simp [Operation.operands])) u hu
    · exact OC_nodes_value rhs N tr hOC (hops rhs (by simp [Operation.operands])) u hu
  | .Multiplication lhs rhs, N, tr => by
    intro hOC hops u hu
    simp only [Operation.opNodes, List.mem_append] at hu
    rcases hu with hu | hu
    · exact OC_nodes_value lhs N tr hOC (hops lhs (by simp [Operation.operands])) u hu
    · exact OC_nodes_value rhs N tr hOC (hops rhs (by simp [Operation.operands])) u hu
  | .Exponentiation base n, N, tr => by
    intro hOC hops u hu
    simp only [Operation.opNodes] at hu
    exact OC_nodes_value base N tr hOC (hops base (by simp [Operation.operands])) u hu
end

end Micrograd

namespace Micrograd

theorem idsOf_append (tr1 tr2 : List Value) : idsOf (tr1 ++ tr2) = idsOf tr1 ++ idsOf tr2 := by
  simp [idsOf]

theorem OC_snoc (N tr : List Value) (v : Value) (hOC : OC N tr) (hvN : v ∈ N)
    (hsucc : ∀ w ∈ v.succs, w ∈ tr) : OC N (tr ++ [v]) := by
  intro pre u post h
  rcases append_singleton_cases tr v pre post u h with ⟨rfl, rfl, rfl⟩ | ⟨post2, rfl, rfl⟩
  · exact ⟨hvN, hsucc⟩
  · exact hOC pre u post2 rfl

/-- A node whose id is already in the visited set has been fully processed:
it is in the pushed traversal (it cannot be gray, as gray ids strictly
exceed its own, and coherence identifies it with the pushed handle of the
same id). -/
theorem visited_mem_tr (N : List Value) (hco : Coherent N) (v : Value) (hvN : v ∈ N)
    (G vis : List Nat) (tr : List Value) (hinv : TopoInv N G vis tr)
    (hG : ∀ g ∈ G, v.id < g) (hmem : v.id ∈ vis) : v ∈ tr := by
  rcases (hinv.1 v.id).mp hmem with h1 | h1
  · obtain ⟨u, hu, hid⟩ := List.mem_map.mp h1
    obtain ⟨pre, post, htr⟩ := List.append_of_mem hu
    have huN := (hinv.2.1 pre u post htr).1
    have hEq := hco u huN v hvN hid
    exact hEq ▸ hu
  · exact absurd (hG _ h1) (lt_irrefl v.id)

/-- The already-visited branch of `toposort_impl` keeps the invariant,
pushes nothing, and everything reachable from the node is already pushed. -/
theorem toposort_skip_spec (v : Value) (N : List Value) (hco : Coherent N) (hvN : v ∈ N)
    (G vis : List Nat) (tr : List Value) (hinv : TopoInv N G vis tr)
    (hG : ∀ g ∈ G, v.id < g) (hmem : v.id ∈ vis) :
    TopoInv N G vis tr ∧ (∃ Δ, tr = tr ++ Δ ∧ ∀ u ∈ Δ, u ∈ v.nodes) ∧
      (∀ u ∈ v.nodes, u ∈ tr) := by
  refine ⟨hinv, ⟨[], by simp, by simp⟩, ?_⟩
  exact OC_nodes_value v N tr hinv.2.1 (visited_mem_tr N hco v hvN G vis tr hinv hG hmem)

mutual
/-- Invariant preservation, soundness of the pushed segment, and totality
for one `toposort_impl` call on a node whose id lies below every gray id. -/
theorem toposort_impl_spec :
    ∀ (v : Value) (N : List Value), Coherent N → (∀ u ∈ N, ∀ w ∈ u.succs, w ∈ N) →
      Decreasing N → v ∈ N →
      ∀ (G vis : List Nat) (tr : List Value), TopoInv N G vis tr → (∀ g ∈ G, v.id < g) →
      TopoInv N G (v.toposort_impl vis tr).1 (v.toposort_impl vis tr).2 ∧
      (∃ Δ, (v.toposort_impl vis tr).2 = tr ++ Δ ∧ ∀ u ∈ Δ, u ∈ v.nodes) ∧
      (∀ u ∈ v.nodes, u ∈ (v.toposort_impl vis tr).2)
  | .mk i none => by
    intro N hco hcl hde hvN G vis tr hinv hG
    by_cases hmem : i ∈ vis
    · simp only [Value.toposort_impl, if_pos hmem]
      exact toposort_skip_spec _ N hco hvN G vis tr hinv hG hmem
    · simp only [Value.toposort_impl, if_neg hmem]
      have hiTr : i ∉ idsOf tr := fun h => hmem ((hinv.1 i).mpr (Or.inl h))
      refine ⟨⟨?_, ?_, ?_, ?_⟩, ⟨[.mk i none], rfl, by simp [Value.nodes]⟩, ?_⟩
      · intro j
        have h := hinv.1 j
        constructor
        · intro hj
          rcases List.mem_cons.mp hj with rfl | hj
          · left
            rw [idsOf_append]
            exact List.mem_append_right _ (by simp [idsOf, Value.id])
          · rcases h.mp hj with h1 | h1
            · left
              rw [idsOf_append]
              exact List.mem_append_left _ h1
            · exact Or.inr h1
        · intro hj
          rcases hj with h1 | h1
          · rw [idsOf_append] at h1
            rcases List.mem_append.mp h1 with h2 | h2
            · exact List.mem_cons_of_mem _ (h.mpr (Or.inl h2))
            · simp only [idsOf, List.map_cons, List.map_nil, Value.id,
                List.mem_singleton] at h2
              subst h2
              exact List.mem_cons_self _ _
          · exact List.mem_cons_of_mem _ (h.mpr (Or.inr h1))
      · refine OC_snoc N tr _ hinv.2.1 hvN ?_
        simp [Value.succs, Value.operation]
      · rw [idsOf_append]
        simp only [List.nodup_append, idsOf, List.map_cons, List.map_nil, Value.id]
        refine ⟨hinv.2.2.1, List.nodup_singleton _, ?_⟩
        intro a ha hb
        simp only [List.mem_singleton] at hb
        subst hb
        exact hiTr ha
      · intro g hg
        rw [idsOf_append]
        simp only [List.mem_append, idsOf, List.map_cons, List.map_nil, Value.id,
          List.mem_singleton]
        push_neg
        exact ⟨hinv.2.2.2 g hg, fun h => absurd (h ▸ hG g hg) (lt_irrefl _)⟩
      · intro u hu
        simp only [Value.nodes, List.mem_singleton] at hu
        subst hu
        exact List.mem_append_right _ (by simp)
  | .mk i (some op) => by
    intro N hco hcl hde hvN G vis tr hinv hG
    by_cases hmem : i ∈ vis
    · simp only [Value.toposort_impl, if_pos hmem]
      exact toposort_skip_spec _ N hco hvN G vis tr hinv hG hmem
    · simp only [Value.toposort_impl, if_neg hmem]
      have hvsuccs : (Value.mk i (some op)).succs = op.operands := by
        simp [Value.succs, Value.operation]
      have hopN : ∀ w ∈ op.operands, w ∈ N := fun w hw =>
        hcl _ hvN w (hvsuccs ▸ hw)
      have hopdec : ∀ w ∈ op.operands, w.id < i := fun w hw =>
        hde _ hvN w (hvsuccs ▸ hw)
      have hiTr : i ∉ idsOf tr := fun h => hmem ((hinv.1 i).mpr (Or.inl h))
      have hinv2 : TopoInv N (i :: G) (i :: vis) tr := by
        refine ⟨?_, hinv.2.1, hinv.2.2.1, ?_⟩
        · intro j
          have h := hinv.1 j
          simp only [List.mem_cons, h]
          tauto
        · intro g hg
          rcases List.mem_cons.mp hg with rfl | hg
          · exact hiTr
          · exact hinv.2.2.2 g hg
      have hopG : ∀ w ∈ op.operands, ∀ g ∈ i :: G, w.id < g := by
        intro w hw g hg
        rcases List.mem_cons.mp hg with rfl | hg
        · exact hopdec w hw
        · exact lt_trans (hopdec w hw) (hG g hg)
      obtain ⟨hinv3, ⟨Δ, hΔ, hΔm⟩, htot⟩ :=
        toposort_ops_spec op N hco hcl hde hopN (i :: G) (i :: vis) tr hinv2 hopG
      have hiT2 : i ∉ idsOf (op.toposort_ops (i :: vis) tr).2 :=
        hinv3.2.2.2 i (List.mem_cons_self i G)
      refine ⟨⟨?_, ?_, ?_, ?_⟩, ⟨Δ ++ [.mk i (some op)], ?_, ?_⟩, ?_⟩
      · intro j
        have h := hinv3.1 j
        constructor
        · intro hj
          rcases h.mp hj with h1 | h1
          · left
            rw [idsOf_append]
            exact List.mem_append_left _ h1
          · rcases List.mem_cons.mp h1 with rfl | h1
            · left
              rw [idsOf_append]
              exact List.mem_append_right _ (by simp [idsOf, Value.id])
            · exact Or.inr h1
        · intro hj
          rcases hj with h1 | h1
          · rw [idsOf_append] at h1
            rcases List.mem_append.mp h1 with h2 | h2
            · exact h.mpr (Or.inl h2)
            · simp only [idsOf, List.map_cons, List.map_nil, Value.id,
                List.mem_singleton] at h2
              subst h2
              exact h.mpr (Or.inr (List.mem_cons_self _ _))
          · exact h.mpr (Or.inr (List.mem_cons_of_mem _ h1))
      · refine OC_snoc N _ _ hinv3.2.1 hvN ?_
        rw [hvsuccs]
        intro w hw
        exact htot w (operands_subset_opNodes op w hw)
      · rw [idsOf_append]
        simp only [List.nodup_append, idsOf, List.map_cons, List.map_nil, Value.id]
        refine ⟨hinv3.2.2.1, List.nodup_singleton _, ?_⟩
        intro a ha hb
        simp only [List.mem_singleton] at hb
        subst hb
        exact hiT2 ha
      · intro g hg
        rw [idsOf_append]
        simp only [List.mem_append, idsOf, List.map_cons, List.map_nil, Value.id,
          List.mem_singleton]
        push_neg
        refine ⟨hinv3.2.2.2 g (List.mem_cons_of_mem i hg), ?_⟩
        intro h
        exact absurd (h ▸ hG g hg) (lt_irrefl _)
      · rw [hΔ, List.append_assoc]
      · intro u hu
        rcases List.mem_append.mp hu with hu | hu
        · have := hΔm u hu
          simp only [Value.nodes, List.mem_cons]
          exact Or.inr this
        · simp only [List.mem_singleton] at hu
          subst hu
          exact self_mem_nodes _
      · intro u hu
        simp only [Value.nodes, List.mem_cons] at hu
        rcases hu with rfl | hu
        · exact List.mem_append_right _ (by simp)
        · exact List.mem_append_left _ (htot u hu)

/-- The same statement for the operand-visiting step of `toposort_ops`. -/
theorem toposort_ops_spec :
    ∀ (op : Operation) (N : List Value), Coherent N → (∀ u ∈ N, ∀ w ∈ u.succs, w ∈ N) →
      Decreasing N → (∀ w ∈ op.operands, w ∈ N) →
      ∀ (G vis : List Nat) (tr : List Value), TopoInv N G vis tr →
      (∀ w ∈ op.operands, ∀ g ∈ G, w.id < g) →
      TopoInv N G (op.toposort_ops vis tr).1 (op.toposort_ops vis tr).2 ∧
      (∃ Δ, (op.toposort_ops vis tr).2 = tr ++ Δ ∧ ∀ u ∈ Δ, u ∈ op.opNodes) ∧
      (∀ u ∈ op.opNodes, u ∈ (op.toposort_ops vis tr).2)
  | .Addition lhs rhs => by
    intro N hco hcl hde hopN G vis tr hinv hopG
    obtain ⟨hinv1, ⟨Δ1, hΔ1, hΔ1m⟩, htot1⟩ :=
      toposort_impl_spec lhs N hco hcl hde (hopN lhs (by simp [Operation.operands])) G vis tr
        hinv (fun g hg => hopG lhs (by simp [Operation.operands]) g hg)
    obtain ⟨hinv2, ⟨Δ2, hΔ2, hΔ2m⟩, htot2⟩ :=
      toposort_impl_spec rhs N hco hcl hde (hopN rhs (by simp [Operation.operands])) G
        (lhs.toposort_impl vis tr).1 (lhs.toposort_impl vis tr).2 hinv1
        (fun g hg => hopG rhs (by simp [Operation.operands]) g hg)
    simp only [Operation.toposort_ops]
    refine ⟨hinv2, ⟨Δ1 ++ Δ2, ?_, ?_⟩, ?_⟩
    · rw [hΔ2, hΔ1, List.append_assoc]
    · intro u hu
      simp only [Operation.opNodes, List.mem_append]
      rcases List.mem_append.mp hu with hu | hu
      · exact Or.inl (hΔ1m u hu)
      · exact Or.inr (hΔ2m u hu)
    · intro u hu
      simp only [Operation.opNodes, List.mem_append] at hu
      rcases hu with hu | hu
      · rw [hΔ2]
        exact List.mem_append_left _ (htot1 u hu)
      · exact htot2 u hu
  | .Subtraction lhs rhs => by
    intro N hco hcl hde hopN G vis tr hinv hopG
    obtain ⟨hinv1, ⟨Δ1, hΔ1, hΔ1m⟩, htot1⟩ :=
      toposort_impl_spec lhs N hco hcl hde (hopN lhs (by simp [Operation.operands])) G vis tr
        hinv (fun g hg => hopG lhs (by simp [Operation.operands]) g hg)
    obtain ⟨hinv2, ⟨Δ2, hΔ2, hΔ2m⟩, htot2⟩ :=
      toposort_impl_spec rhs N hco hcl hde (hopN rhs (by simp [Operation.operands])) G
        (lhs.toposort_impl vis tr).1 (lhs.toposort_impl vis tr).2 hinv1
        (fun g hg => hopG rhs (by simp [Operation.operands]) g hg)
    simp only [Operation.toposort_ops]
    refine ⟨hinv2, ⟨Δ1 ++ Δ2, ?_, ?_⟩, ?_⟩
    · rw [hΔ2, hΔ1, List.append_assoc]
    · intro u hu
      simp only [Operation.opNodes, List.mem_append]
      rcases List.mem_append.mp hu with hu | hu
      · exact Or.inl (hΔ1m u hu)
      · exact Or.inr (hΔ2m u hu)
    · intro u hu
      simp only [Operation.opNodes, List.mem_append] at hu
      rcases hu with hu | hu
      · rw [hΔ2]
        exact List.mem_append_left _ (htot1 u hu)
      · exact htot2 u hu
  | .Multiplication lhs rhs => by
    intro N hco hcl hde hopN G vis tr hinv hopG
    obtain ⟨hinv1, ⟨Δ1, hΔ1, hΔ1m⟩, htot1⟩ :=
      toposort_impl_spec lhs N hco hcl hde (hopN lhs (by simp [Operation.operands])) G vis tr
        hinv (fun g hg => hopG lhs (by simp [Operation.operands]) g hg)
    obtain ⟨hinv2, ⟨Δ2, hΔ2, hΔ2m⟩, htot2⟩ :=
      toposort_impl_spec rhs N hco hcl hde (hopN rhs (by simp [Operation.operands])) G
        (lhs.toposort_impl vis tr).1 (lhs.toposort_impl vis tr).2 hinv1
        (fun g hg => hopG rhs (by simp [Operation.operands]) g hg)
    simp only [Operation.toposort_ops]
    refine ⟨hinv2, ⟨Δ1 ++ Δ2, ?_, ?_⟩, ?_⟩
    · rw [hΔ2, hΔ1, List.append_assoc]
    · intro u hu
      simp only [Operation.opNodes, List.mem_append]
      rcases List.mem_append.mp hu with hu | hu
      · exact Or.inl (hΔ1m u hu)
      · exact Or.inr (hΔ2m u hu)
    · intro u hu
      simp only [Operation.opNodes, List.mem_append] at hu
      rcases hu with hu | hu
      · rw [hΔ2]
        exact List.mem_append_left _ (htot1 u hu)
      · exact htot2 u hu
  | .Exponentiation base n => by
    intro N hco hcl hde hopN G vis tr hinv hopG
    obtain ⟨hinv1, ⟨Δ1, hΔ1, hΔ1m⟩, htot1⟩ :=
      toposort_impl_spec base N hco hcl hde (hopN base (by simp [Operation.operands])) G vis tr
        hinv (fun g hg => hopG base (by simp [Operation.operands]) g hg)
    simp only [Operation.toposort_ops]
    exact ⟨hinv1, ⟨Δ1, hΔ1, fun u hu => by
      simpa only [Operation.opNodes] using hΔ1m u hu⟩, fun u hu => htot1 u (by
        simpa only [Operation.opNodes] using hu)⟩
end

end Micrograd

namespace Micrograd

theorem toposort_impl_snoc : ∀ (v : Value) (vis : List Nat) (tr : List Value), v.id ∉ vis →
    ∃ q, (v.toposort_impl vis tr).2 = q ++ [v]
  | .mk i none => by
    intro vis tr hmem
    simp only [Value.id] at hmem
    simp only [Value.toposort_impl]
    rw [if_neg hmem]
    exact ⟨tr, rfl⟩
  | .mk i (some op) => by
    intro vis tr hmem
    simp only [Value.id] at hmem
    simp only [Value.toposort_impl]
    rw [if_neg hmem]
    exact ⟨(op.toposort_ops (i :: vis) tr).2, rfl⟩

/-- Claim C3: topological-sort correctness.  For any terminal node of a
well-formed expression DAG — all reachable handles with equal storage id
are identical (`Rc` sharing) and operand edges point to strictly older
storage locations (structural acyclicity) — the computed order contains a
handle exactly for the reachable nodes, with no storage id repeated (each
node exactly once, deduplicated by storage identity), the terminal node
comes first, and every node's operands occur strictly after it (every
consumer precedes its operands). -/
theorem toposort_correct (t : Value) (hco : Coherent t.nodes) (hde : Decreasing t.nodes) :
    (∀ u, u ∈ t.toposort ↔ u ∈ t.nodes) ∧
    (t.toposort.map Value.id).Nodup ∧
    t.toposort.head? = some t ∧
    (∀ pre u post, t.toposort = pre ++ u :: post → ∀ w ∈ u.succs, w ∈ post) := by
  have hinv0 : TopoInv t.nodes [] [] [] := by
    refine ⟨by simp [idsOf], ?_, by simp [idsOf], by simp⟩
    intro pre u post h
    exact absurd h (by simp)
  obtain ⟨hinvF, ⟨Δ, hΔ, hΔm⟩, htotF⟩ :=
    toposort_impl_spec t t.nodes hco (nodes_closed t) hde (self_mem_nodes t) [] [] []
      hinv0 (by simp)
  have hsound : ∀ u ∈ (t.toposort_impl [] []).2, u ∈ t.nodes := by
    rw [hΔ]
    simpa using hΔm
  refine ⟨?_, ?_, ?_, ?_⟩
  · intro u
    rw [Value.toposort, List.mem_reverse]
    exact ⟨fun h => hsound u h, fun h => htotF u h⟩
  · rw [Value.toposort, List.map_reverse, List.nodup_reverse]
    exact hinvF.2.2.1
  · obtain ⟨q, hq⟩ := toposort_impl_snoc t [] [] (by simp)
    rw [Value.toposort, hq]
    simp
  · intro pre u post h w hw
    have htr : (t.toposort_impl [] []).2 = post.reverse ++ u :: pre.reverse := by
      have h2 : (t.toposort_impl [] []).2 = (pre ++ u :: post).reverse := by
        rw [Value.toposort] at h
        rw [← h, List.reverse_reverse]
      rw [h2]
      simp [List.reverse_append]
    have hmem := (hinvF.2.1 post.reverse u pre.reverse htr).2 w hw
    simpa using hmem

theorem toposort_correct_witness :
    Coherent (Value.mk 4 (some (.Addition
        (.mk 2 (some (.Addition (.mk 0 none) (.mk 1 none))))
        (.mk 3 (some (.Multiplication (.mk 0 none) (.mk 1 none))))))).nodes ∧
    Decreasing (Value.mk 4 (some (.Addition
        (.mk 2 (some (.Addition (.mk 0 none) (.mk 1 none))))
        (.mk 3 (some (.Multiplication (.mk 0 none) (.mk 1 none))))))).nodes ∧
    (Value.mk 4 (some (.Addition
        (.mk 2 (some (.Addition (.mk 0 none) (.mk 1 none))))
        (.mk 3 (some (.Multiplication (.mk 0 none) (.mk 1 none))))))).toposort.head? =
      some (Value.mk 4 (some (.Addition
        (.mk 2 (some (.Addition (.mk 0 none) (.mk 1 none))))
        (.mk 3 (some (.Multiplication (.mk 0 none) (.mk 1 none))))))) :=
  ⟨by decide, by decide,
    (toposort_correct _ (by decide) (by decide)).2.2.1⟩

end Micrograd
